import Mathlib

/-!
Verification development for the log-ingestion core of the collector.

Shallow embedding of:
* `collector/watcher.py` — `StateManager` (progress store) and
  `LogFileHandler._process_file` (the per-file read-parse-store pass);
* `collector/main.py` — the `on_line` callback and its counters;
* the storage-sink insert operation `insert_raw_line`, which `main.py`
  invokes but whose body is not part of the sources here; it is modelled
  from its specified contract.

Files are modelled as lists of characters (the watched transcripts are
UTF-8 JSON lines; byte offsets coincide with character counts for the
inputs considered here).  The `readline` loop of `_process_file` is
embedded by first splitting the tail of the file into newline-terminated
chunks (`splitLines`, exactly the iterated behaviour of `f.readline()`)
and then folding the per-line body over those chunks (`runLines`).
-/

/-- The NUL character, `"\x00"` in the Python source. -/
def NUL : Char := Char.ofNat 0

/-- ASCII whitespace as recognised by Python's `str.strip()` (space, tab,
newline, carriage return, vertical tab, form feed). -/
def isPySpace (c : Char) : Bool :=
  c = ' ' || c = '\t' || c = '\n' || c = '\r' || c = Char.ofNat 11 || c = Char.ofNat 12

/-- Python `line.strip()`: drop whitespace from both ends. -/
def pstrip (l : List Char) : List Char :=
  ((l.dropWhile isPySpace).reverse.dropWhile isPySpace).reverse

/-- The six-character escape text `\u0000` removed by
`line.replace("\\u0000", "")` in `watcher.py`. -/
def escPat : List Char := ['\\', 'u', '0', '0', '0', '0']

/-- Python `line.replace("\\u0000", "")`: one left-to-right scan removing
non-overlapping occurrences of the escape text. -/
def stripEsc : List Char → List Char
  | '\\' :: 'u' :: '0' :: '0' :: '0' :: '0' :: rest => stripEsc rest
  | c :: rest => c :: stripEsc rest
  | [] => []

/-- Python `line.replace("\x00", "")`: remove every literal NUL byte. -/
def stripNulChar : List Char → List Char
  | [] => []
  | c :: rest => if c = NUL then stripNulChar rest else c :: stripNulChar rest

/-- The sanitization step of `_process_file`, in source order:
`line.replace("\\u0000", "").replace("\x00", "")`. -/
def sanitize (l : List Char) : List Char := stripNulChar (stripEsc l)

/-- One row of the storage sink: origin host, file path, byte offset of
the source line, and the stored payload (kept as the sanitized line text
whose JSON parse it is). -/
structure RawRecord where
  host : String
  path : String
  off : Nat
  payload : List Char
deriving DecidableEq

/-- The storage sink's table contents, newest record first. -/
abbrev DB := List RawRecord

/-- The uniqueness key comparison: the triple (host, path, offset). -/
def sameKey (r : RawRecord) (host path : String) (off : Nat) : Bool :=
  decide (r.host = host ∧ r.path = path ∧ r.off = off)

/-- Whether some stored record already carries the given key triple. -/
def hasKey (db : DB) (host path : String) (off : Nat) : Bool :=
  db.any fun r => sameKey r host path off

/-- Modelled from the spec: the Storage Sink operation
`insert(origin_host, file_path, byte_offset, payload) -> inserted`,
called `insert_raw_line` by `main.py` but absent from the sources here.
Uniqueness is enforced on (origin_host, file_path, byte_offset); an
insert whose key triple already exists is silently ignored and reported
as `false`; a new key stores the record and reports `true`. -/
def insert_raw_line (db : DB) (host path : String) (off : Nat) (payload : List Char) :
    DB × Bool :=
  if hasKey db host path off then (db, false)
  else (⟨host, path, off, payload⟩ :: db, true)

/-- The process-wide counters of `main.py` (`stats` dictionary). -/
structure Stats where
  inserted : Nat
  skipped : Nat
  errors : Nat
deriving DecidableEq

/-- Observable actions of one pass: a sink insert attempt (with the
reported flag), an invalid-JSON warning, and a progress-store commit. -/
inductive Event where
  | ins (host path : String) (off : Nat) (payload : List Char) (inserted : Bool)
  | warn (path : String) (off : Nat)
  | setPos (path : String) (pos : Nat)
deriving DecidableEq

/-- Result of the `on_line` callback: the sink and counters afterwards,
plus the flag the insert reported. -/
structure OnLineOut where
  db : DB
  stats : Stats
  ok : Bool
deriving DecidableEq

/-- The `on_line` callback of `main.py`: insert the parsed line, then
bump `inserted` or `skipped` according to the reported flag. -/
def on_line (host : String) (db : DB) (stats : Stats) (path : String) (off : Nat)
    (payload : List Char) : OnLineOut :=
  let res := insert_raw_line db host path off payload
  if res.2 then ⟨res.1, { stats with inserted := stats.inserted + 1 }, true⟩
  else ⟨res.1, { stats with skipped := stats.skipped + 1 }, false⟩

/-- Split a character stream into the chunks successive `f.readline()`
calls return: each chunk ends at a newline (kept), except a final
unterminated chunk at end of file. -/
def splitLines : List Char → List (List Char)
  | [] => []
  | c :: cs =>
    if c = '\n' then ['\n'] :: splitLines cs
    else
      match splitLines cs with
      | [] => [[c]]
      | l :: ls => (c :: l) :: ls

/-- Everything the read loop of `_process_file` produces: sink and
counters afterwards, the event trace, the `new_lines` counter, and the
final stream position `f.tell()`. -/
structure LoopOut where
  db : DB
  stats : Stats
  events : List Event
  newLines : Nat
  endPos : Nat
deriving DecidableEq

/-- The `while True` readline loop of `_process_file`: for each line,
record its starting offset, skip it if blank after stripping, otherwise
sanitize it and either hand it to `on_line` (JSON decodes, modelled by
the `valid` predicate standing for `json.loads` succeeding) or log a
warning.  The position advances by the raw length of every line read. -/
def runLines (valid : List Char → Bool) (host path : String) :
    List (List Char) → Nat → DB → Stats → LoopOut
  | [], pos, db, stats => ⟨db, stats, [], 0, pos⟩
  | line :: rest, pos, db, stats =>
    if (pstrip line).isEmpty then
      runLines valid host path rest (pos + line.length) db stats
    else
      let s := sanitize (pstrip line)
      if valid s then
        let r := on_line host db stats path pos s
        let out := runLines valid host path rest (pos + line.length) r.db r.stats
        { out with events := .ins host path pos s r.ok :: out.events,
                   newLines := out.newLines + 1 }
      else
        let out := runLines valid host path rest (pos + line.length) db stats
        { out with events := .warn path pos :: out.events }

/-- The progress store of `StateManager`: file path to last-read byte
offset, persisted wholesale on every update. -/
abbrev StateMap := List (String × Nat)

/-- `StateManager.get_position`: the stored offset, defaulting to 0 for
an unseen path. -/
def get_position : StateMap → String → Nat
  | [], _ => 0
  | e :: t, p => if e.1 = p then e.2 else get_position t p

/-- `StateManager.set_position`: dictionary assignment, replacing the
entry for the path or appending a fresh one, then saving the snapshot. -/
def set_position : StateMap → String → Nat → StateMap
  | [], p, n => [(p, n)]
  | e :: t, p, n => if e.1 = p then (p, n) :: t else e :: set_position t p n

/-- Result of one `_process_file` pass: progress store, sink, counters,
and the event trace of the pass. -/
structure PassOut where
  state : StateMap
  db : DB
  stats : Stats
  events : List Event
  newLines : Nat
deriving DecidableEq

/-- The read loop of a pass, started from the stored position: seek
there (drop that prefix of the file) and run the readline loop. -/
def passLoop (valid : List Char → Bool) (host path : String) (file : List Char)
    (st : StateMap) (db : DB) (stats : Stats) : LoopOut :=
  runLines valid host path (splitLines (file.drop (get_position st path)))
    (get_position st path) db stats

/-- `LogFileHandler._process_file`: run the read loop from the stored
position, then commit the end position to the progress store only when
it advanced past the starting position (`if new_position > position`). -/
def _process_file (valid : List Char → Bool) (host path : String) (file : List Char)
    (st : StateMap) (db : DB) (stats : Stats) : PassOut :=
  let out := passLoop valid host path file st db stats
  if get_position st path < out.endPos then
    ⟨set_position st path out.endPos, out.db, out.stats,
      out.events ++ [.setPos path out.endPos], out.newLines⟩
  else
    ⟨st, out.db, out.stats, out.events, out.newLines⟩

/-- Outcome of the attempt to open and read a file during a pass: the
open call fails, an I/O error interrupts reading after some prefix of
the stream was delivered, or the whole stream is read. -/
inductive ReadOutcome where
  | openFail : ReadOutcome
  | readFail (consumed : List Char) : ReadOutcome
  | ok (file : List Char) : ReadOutcome

/-- `_process_file` including its `try … except IOError` wrapper: an
open failure does nothing; an I/O error mid-read leaves the loop's sink
effects in place but skips the `set_position` commit; a clean read is
the normal pass.  No outcome raises past the handler. -/
def _process_file_io (valid : List Char → Bool) (host path : String) (o : ReadOutcome)
    (st : StateMap) (db : DB) (stats : Stats) : PassOut :=
  match o with
  | .openFail => ⟨st, db, stats, [], 0⟩
  | .readFail pre =>
    let out := runLines valid host path (splitLines pre) (get_position st path) db stats
    ⟨st, out.db, out.stats, out.events, out.newLines⟩
  | .ok file => _process_file valid host path file st db stats

/-- A line is well formed for the reader when it is newline-terminated
with no interior newline. -/
def lineWF (l : List Char) : Bool :=
  l.getLast? == some '\n' && !(l.dropLast.contains '\n')

/-- A line the coordinator stores: non-blank after stripping and valid
JSON after sanitization. -/
def goodLine (valid : List Char → Bool) (l : List Char) : Bool :=
  !(pstrip l).isEmpty && valid (sanitize (pstrip l))

/-- Decoder stand-in accepting every line (for concrete instances). -/
def validAny : List Char → Bool := fun _ => true

/-- Decoder stand-in for concrete instances: a line decodes when it
starts with an opening brace, as the scenario lines of the spec do. -/
def startsBrace (l : List Char) : Bool := l.head? == some '{'

/-- Inserts the loop would attempt, in order: the record per stored
line, independent of the sink contents. -/
def attempts (valid : List Char → Bool) (host path : String) :
    List (List Char) → Nat → List RawRecord
  | [], _ => []
  | line :: rest, pos =>
    if (pstrip line).isEmpty then attempts valid host path rest (pos + line.length)
    else
      let s := sanitize (pstrip line)
      if valid s then
        ⟨host, path, pos, s⟩ :: attempts valid host path rest (pos + line.length)
      else attempts valid host path rest (pos + line.length)

/-- Fold one insert into the sink, keeping only the table. -/
def insert1 (db : DB) (r : RawRecord) : DB :=
  (insert_raw_line db r.host r.path r.off r.payload).1

/-- Fold a list of insert attempts into the sink. -/
def insertAll (db : DB) (rs : List RawRecord) : DB := rs.foldl insert1 db

/-- Recognises a sink insert event that reported `inserted = true`. -/
def isInsTrue : Event → Bool
  | .ins _ _ _ _ b => b
  | _ => false

/-- Recognises a progress-store commit event. -/
def isSetPosEv : Event → Bool
  | .setPos _ _ => true
  | _ => false

/-- Recognises an invalid-JSON warning event. -/
def isWarnEv : Event → Bool
  | .warn _ _ => true
  | _ => false

/-- Insert events below a bound: every insert event's offset is smaller
than the bound; other events pass. -/
def insOffLt (bound : Nat) : Event → Bool
  | .ins _ _ o _ _ => decide (o < bound)
  | _ => true

/-- Whether `pat` occurs as a contiguous run inside `l`. -/
def hasSub (pat : List Char) : List Char → Bool
  | [] => pat.isEmpty
  | c :: rest => pat.isPrefixOf (c :: rest) || hasSub pat rest

/-- Total length of a list of lines. -/
def sumLen : List (List Char) → Nat
  | [] => 0
  | l :: ls => l.length + sumLen ls

/-- Concrete storable JSON line for concrete instances (the spec
scenario's first line), newline-terminated. -/
def wline1 : List Char :=
  '\x7b' :: ("\"type\":\"user\",\"uuid\":\"u1\"".data ++ ['\x7d', '\n'])

/-- Concrete storable JSON line for concrete instances (the spec
scenario's third line), newline-terminated. -/
def wline3 : List Char :=
  '\x7b' :: ("\"type\":\"assistant\",\"uuid\":\"u2\"".data ++ ['\x7d', '\n'])

/-- Concrete malformed line for concrete instances, newline-terminated. -/
def badline : List Char := "not json".data ++ ['\n']

/-- Fragment on which one-pass escape removal recreates the escape:
removing the one complete occurrence in the middle joins the two outer
halves into a new occurrence that survives. -/
def evilFrag : List Char :=
  ['\\', 'u', '0', '0', '\\', 'u', '0', '0', '0', '0', '0', '0']

/-- A well-formed JSON line embedding the fragment in a string value. -/
def evilLine : List Char :=
  '\x7b' :: '"' :: 'a' :: '"' :: ':' :: '"' :: (evilFrag ++ ['"', '\x7d'])

/-! ### Basic lemmas about the embedded operations -/

theorem pstrip_nil : pstrip [] = [] := rfl

theorem goodLine_ne_nil {valid : List Char → Bool} {l : List Char}
    (h : goodLine valid l = true) : l ≠ [] := by
  intro hl
  subst hl
  simp [goodLine, pstrip] at h

theorem goodLine_not_blank {valid : List Char → Bool} {l : List Char}
    (h : goodLine valid l = true) : (pstrip l).isEmpty = false := by
  simp [goodLine] at h
  simpa using h.1

theorem goodLine_valid {valid : List Char → Bool} {l : List Char}
    (h : goodLine valid l = true) : valid (sanitize (pstrip l)) = true := by
  simp [goodLine] at h
  exact h.2

theorem get_set_self (st : StateMap) (p : String) (n : Nat) :
    get_position (set_position st p n) p = n := by
  induction st with
  | nil => simp [set_position, get_position]
  | cons e t ih =>
    by_cases h : e.1 = p
    · simp [set_position, get_position, h]
    · simp [set_position, get_position, h, ih]

theorem get_set_ne (st : StateMap) (p q : String) (n : Nat) (hq : q ≠ p) :
    get_position (set_position st p n) q = get_position st q := by
  induction st with
  | nil => simp [set_position, get_position, Ne.symm hq]
  | cons e t ih =>
    by_cases h : e.1 = p
    · simp [set_position, get_position, h, Ne.symm hq, ih]
    · simp [set_position, get_position, h, ih]

theorem hasKey_cons (x : RawRecord) (db : DB) (h p : String) (o : Nat) :
    hasKey (x :: db) h p o = (sameKey x h p o || hasKey db h p o) := by
  simp [hasKey]

theorem on_line_db (host : String) (db : DB) (stats : Stats) (path : String)
    (off : Nat) (payload : List Char) :
    (on_line host db stats path off payload).db
      = (insert_raw_line db host path off payload).1 := by
  unfold on_line
  by_cases h : (insert_raw_line db host path off payload).2 <;> simp [h]

theorem hasKey_insert1_mono {db : DB} {h p : String} {o : Nat} (r : RawRecord)
    (hk : hasKey db h p o = true) : hasKey (insert1 db r) h p o = true := by
  unfold insert1 insert_raw_line
  by_cases hc : hasKey db r.host r.path r.off
  · simpa [hc]
  · simp [hc, hasKey_cons, hk]

theorem hasKey_insert1_self (db : DB) (r : RawRecord) :
    hasKey (insert1 db r) r.host r.path r.off = true := by
  unfold insert1 insert_raw_line
  by_cases hc : hasKey db r.host r.path r.off
  · simp [hc]
  · simp [hc, hasKey_cons, sameKey]

theorem hasKey_insertAll_mono (rs : List RawRecord) :
    ∀ db h p o, hasKey db h p o = true → hasKey (insertAll db rs) h p o = true := by
  induction rs with
  | nil => intro db h p o hk; simpa [insertAll]
  | cons a as ih =>
    intro db h p o hk
    have := ih (insert1 db a) h p o (hasKey_insert1_mono a hk)
    simpa [insertAll] using this

theorem insertAll_complete (rs : List RawRecord) :
    ∀ db, ∀ r ∈ rs, hasKey (insertAll db rs) r.host r.path r.off = true := by
  induction rs with
  | nil => intro db r hr; cases hr
  | cons a as ih =>
    intro db r hr
    rcases List.mem_cons.mp hr with h | h
    · subst h
      have h1 := hasKey_insert1_self db r
      have h2 := hasKey_insertAll_mono as (insert1 db r) r.host r.path r.off h1
      simpa [insertAll] using h2
    · have := ih (insert1 db a) r h
      simpa [insertAll] using this

theorem splitLines_cons (c : Char) (cs : List Char) :
    splitLines (c :: cs)
      = if c = '\n' then ['\n'] :: splitLines cs
        else
          match splitLines cs with
          | [] => [[c]]
          | l :: ls => (c :: l) :: ls := rfl

theorem runLines_cons (valid : List Char → Bool) (host path : String)
    (l : List Char) (rest : List (List Char)) (pos : Nat) (db : DB) (stats : Stats) :
    runLines valid host path (l :: rest) pos db stats
      = if (pstrip l).isEmpty then
          runLines valid host path rest (pos + l.length) db stats
        else
          let s := sanitize (pstrip l)
          if valid s then
            let r := on_line host db stats path pos s
            let out := runLines valid host path rest (pos + l.length) r.db r.stats
            { out with events := .ins host path pos s r.ok :: out.events,
                       newLines := out.newLines + 1 }
          else
            let out := runLines valid host path rest (pos + l.length) db stats
            { out with events := .warn path pos :: out.events } := rfl

theorem splitLines_sumLen (l : List Char) : sumLen (splitLines l) = l.length := by
  induction l with
  | nil => rfl
  | cons c cs ih =>
    by_cases h : c = '\n'
    · rw [show splitLines (c :: cs) = ['\n'] :: splitLines cs by
        rw [splitLines_cons, if_pos h]]
      simp [sumLen, ih]
      omega
    · rcases hs : splitLines cs with _ | ⟨a, as⟩
      · rw [show splitLines (c :: cs) = [[c]] by rw [splitLines_cons, if_neg h, hs]]
        rw [hs] at ih
        simp [sumLen] at ih
        simp [sumLen, ← ih]
      · rw [show splitLines (c :: cs) = (c :: a) :: as by rw [splitLines_cons, if_neg h, hs]]
        rw [hs] at ih
        simp [sumLen] at ih ⊢
        omega

theorem runLines_endPos (valid : List Char → Bool) (host path : String)
    (lines : List (List Char)) :
    ∀ pos db stats, (runLines valid host path lines pos db stats).endPos
      = pos + sumLen lines := by
  induction lines with
  | nil => intro pos db stats; simp [runLines, sumLen]
  | cons l rest ih =>
    intro pos db stats
    rw [runLines_cons]
    by_cases h : (pstrip l).isEmpty
    · simp only [h, if_true, ite_true]
      rw [ih]
      simp [sumLen]
      omega
    · by_cases hv : valid (sanitize (pstrip l))
      · simp only [h, hv, Bool.false_eq_true, if_false, if_true, ite_true, ite_false]
        simp only [ih]
        simp [sumLen]
        omega
      · simp only [h, hv, Bool.false_eq_true, if_false, ite_false]
        simp only [ih]
        simp [sumLen]
        omega

theorem runLines_no_setPos (valid : List Char → Bool) (host path : String)
    (lines : List (List Char)) :
    ∀ pos db stats, ∀ e ∈ (runLines valid host path lines pos db stats).events,
      isSetPosEv e = false := by
  induction lines with
  | nil => intro pos db stats e he; simp [runLines] at he
  | cons l rest ih =>
    intro pos db stats e he
    rw [runLines_cons] at he
    by_cases h : (pstrip l).isEmpty
    · simp only [h, ite_true] at he
      exact ih _ _ _ e he
    · by_cases hv : valid (sanitize (pstrip l))
      · simp only [h, hv, Bool.false_eq_true, ite_false, ite_true] at he
        rcases List.mem_cons.mp he with h1 | h1
        · subst h1; rfl
        · exact ih _ _ _ e h1
      · simp only [h, hv, Bool.false_eq_true, ite_false] at he
        rcases List.mem_cons.mp he with h1 | h1
        · subst h1; rfl
        · exact ih _ _ _ e h1

theorem runLines_ins_lt (valid : List Char → Bool) (host path : String)
    (lines : List (List Char)) :
    ∀ pos db stats, ∀ e ∈ (runLines valid host path lines pos db stats).events,
      insOffLt (runLines valid host path lines pos db stats).endPos e = true := by
  induction lines with
  | nil => intro pos db stats e he; simp [runLines] at he
  | cons l rest ih =>
    intro pos db stats e he
    rw [runLines_cons] at he ⊢
    by_cases h : (pstrip l).isEmpty
    · simp only [h, ite_true] at he ⊢
      exact ih _ _ _ e he
    · have hl : l ≠ [] := by
        intro hz; subst hz; simp [pstrip] at h
      have hlen : 0 < l.length := List.length_pos.mpr hl
      by_cases hv : valid (sanitize (pstrip l))
      · simp only [h, hv, Bool.false_eq_true, ite_false, ite_true] at he ⊢
        rcases List.mem_cons.mp he with h1 | h1
        · subst h1
          have hend := runLines_endPos valid host path rest (pos + l.length)
            (on_line host db stats path pos (sanitize (pstrip l))).db
            (on_line host db stats path pos (sanitize (pstrip l))).stats
          simp [insOffLt, hend]
          omega
        · exact ih _ _ _ e h1
      · simp only [h, hv, Bool.false_eq_true, ite_false] at he ⊢
        rcases List.mem_cons.mp he with h1 | h1
        · subst h1; rfl
        · exact ih _ _ _ e h1

theorem attempts_cons (valid : List Char → Bool) (host path : String)
    (l : List Char) (rest : List (List Char)) (pos : Nat) :
    attempts valid host path (l :: rest) pos
      = if (pstrip l).isEmpty then attempts valid host path rest (pos + l.length)
        else
          let s := sanitize (pstrip l)
          if valid s then ⟨host, path, pos, s⟩ :: attempts valid host path rest (pos + l.length)
          else attempts valid host path rest (pos + l.length) := rfl

theorem runLines_db (valid : List Char → Bool) (host path : String)
    (lines : List (List Char)) :
    ∀ pos db stats, (runLines valid host path lines pos db stats).db
      = insertAll db (attempts valid host path lines pos) := by
  induction lines with
  | nil => intro pos db stats; simp [runLines, attempts, insertAll]
  | cons l rest ih =>
    intro pos db stats
    rw [runLines_cons, attempts_cons]
    by_cases h : (pstrip l).isEmpty
    · simp only [h, ite_true]
      exact ih _ _ _
    · by_cases hv : valid (sanitize (pstrip l))
      · simp only [h, hv, Bool.false_eq_true, ite_false, ite_true]
        rw [show insertAll db
            (⟨host, path, pos, sanitize (pstrip l)⟩ :: attempts valid host path rest (pos + l.length))
          = insertAll (insert1 db ⟨host, path, pos, sanitize (pstrip l)⟩)
              (attempts valid host path rest (pos + l.length)) by
            simp [insertAll]]
        have hdb : (on_line host db stats path pos (sanitize (pstrip l))).db
            = insert1 db ⟨host, path, pos, sanitize (pstrip l)⟩ := by
          rw [on_line_db]; rfl
        simp only [ih, hdb]
      · simp only [h, hv, Bool.false_eq_true, ite_false]
        exact ih _ _ _

theorem runLines_stable (valid : List Char → Bool) (host path : String)
    (lines : List (List Char)) :
    ∀ pos db stats,
      (∀ r ∈ attempts valid host path lines pos, hasKey db r.host r.path r.off = true) →
      (runLines valid host path lines pos db stats).db = db ∧
      ∀ e ∈ (runLines valid host path lines pos db stats).events, isInsTrue e = false := by
  induction lines with
  | nil => intro pos db stats _; simp [runLines]
  | cons l rest ih =>
    intro pos db stats hc
    rw [runLines_cons]
    rw [attempts_cons] at hc
    by_cases h : (pstrip l).isEmpty
    · simp only [h, ite_true] at hc ⊢
      exact ih _ _ _ hc
    · by_cases hv : valid (sanitize (pstrip l))
      · simp only [h, hv, Bool.false_eq_true, ite_false, ite_true] at hc ⊢
        have hk : hasKey db host path pos = true := by
          have := hc ⟨host, path, pos, sanitize (pstrip l)⟩ (List.mem_cons_self _ _)
          simpa using this
        have hins : insert_raw_line db host path pos (sanitize (pstrip l)) = (db, false) := by
          simp [insert_raw_line, hk]
        have hr : on_line host db stats path pos (sanitize (pstrip l))
            = ⟨db, { stats with skipped := stats.skipped + 1 }, false⟩ := by
          simp [on_line, hins]
        rw [hr]
        have htail := ih (pos + l.length) db { stats with skipped := stats.skipped + 1 }
          (fun r hr' => hc r (List.mem_cons_of_mem _ hr'))
        refine ⟨htail.1, ?_⟩
        intro e he
        simp only [List.mem_cons] at he
        rcases he with h1 | h1
        · subst h1; rfl
        · exact htail.2 e h1
      · simp only [h, hv, Bool.false_eq_true, ite_false] at hc ⊢
        have htail := ih (pos + l.length) db stats hc
        refine ⟨htail.1, ?_⟩
        intro e he
        simp only [List.mem_cons] at he
        rcases he with h1 | h1
        · subst h1; rfl
        · exact htail.2 e h1

theorem runLines_fresh (valid : List Char → Bool) (host path : String)
    (lines : List (List Char)) :
    ∀ pos db stats,
      (∀ l ∈ lines, goodLine valid l = true) →
      (∀ r ∈ db, r.path = path → r.off < pos) →
      ∃ news,
        (runLines valid host path lines pos db stats).db = news ++ db ∧
        news.length = lines.length ∧
        (∀ r ∈ news, r.path = path ∧ pos ≤ r.off) ∧
        (runLines valid host path lines pos db stats).newLines = lines.length ∧
        (runLines valid host path lines pos db stats).stats.inserted
          = stats.inserted + lines.length := by
  induction lines with
  | nil =>
    intro pos db stats _ _
    exact ⟨[], by simp [runLines]⟩
  | cons l rest ih =>
    intro pos db stats hgood hfresh
    have hg := hgood l (List.mem_cons_self _ _)
    have h := goodLine_not_blank hg
    have hv := goodLine_valid hg
    have hl : l ≠ [] := goodLine_ne_nil hg
    have hlen : 0 < l.length := List.length_pos.mpr hl
    rw [runLines_cons]
    simp only [h, hv, Bool.false_eq_true, ite_false, ite_true]
    have hk : hasKey db host path pos = false := by
      rw [hasKey]
      apply List.any_eq_false.mpr
      intro r hr
      simp only [sameKey, decide_eq_true_eq]
      rintro ⟨-, h2, h3⟩
      have := hfresh r hr h2
      omega
    have hins : insert_raw_line db host path pos (sanitize (pstrip l))
        = (⟨host, path, pos, sanitize (pstrip l)⟩ :: db, true) := by
      simp [insert_raw_line, hk]
    have hr : on_line host db stats path pos (sanitize (pstrip l))
        = ⟨⟨host, path, pos, sanitize (pstrip l)⟩ :: db,
            { stats with inserted := stats.inserted + 1 }, true⟩ := by
      simp [on_line, hins]
    rw [hr]
    have hfresh' : ∀ r ∈ (⟨host, path, pos, sanitize (pstrip l)⟩ : RawRecord) :: db,
        r.path = path → r.off < pos + l.length := by
      intro r hr' hp
      rcases List.mem_cons.mp hr' with h1 | h1
      · subst h1; simpa using hlen
      · have := hfresh r h1 hp
        omega
    obtain ⟨news, hdb, hlen', hmem, hnew, hins'⟩ :=
      ih (pos + l.length) (⟨host, path, pos, sanitize (pstrip l)⟩ :: db)
        { stats with inserted := stats.inserted + 1 }
        (fun x hx => hgood x (List.mem_cons_of_mem _ hx)) hfresh'
    refine ⟨news ++ [⟨host, path, pos, sanitize (pstrip l)⟩], ?_, ?_, ?_, ?_, ?_⟩
    · simp only [hdb]
      simp
    · simp [hlen']
    · intro r hr'
      rcases List.mem_append.mp hr' with h1 | h1
      · have := hmem r h1
        exact ⟨this.1, by omega⟩
      · simp only [List.mem_singleton] at h1
        subst h1
        exact ⟨rfl, Nat.le_refl _⟩
    · simp [hnew]
    · simp only [hins']
      simp
      omega

theorem process_file_proj (valid : List Char → Bool) (host path : String)
    (file : List Char) (st : StateMap) (db : DB) (stats : Stats) :
    (_process_file valid host path file st db stats).db
        = (passLoop valid host path file st db stats).db ∧
    (_process_file valid host path file st db stats).stats
        = (passLoop valid host path file st db stats).stats ∧
    (_process_file valid host path file st db stats).newLines
        = (passLoop valid host path file st db stats).newLines := by
  unfold _process_file
  by_cases h : get_position st path < (passLoop valid host path file st db stats).endPos <;>
    simp [h]

theorem process_file_events (valid : List Char → Bool) (host path : String)
    (file : List Char) (st : StateMap) (db : DB) (stats : Stats) :
    (_process_file valid host path file st db stats).events
      = (passLoop valid host path file st db stats).events
        ++ (if get_position st path < (passLoop valid host path file st db stats).endPos
            then [Event.setPos path (passLoop valid host path file st db stats).endPos]
            else []) := by
  unfold _process_file
  by_cases h : get_position st path < (passLoop valid host path file st db stats).endPos <;>
    simp [h]

theorem passLoop_endPos (valid : List Char → Bool) (host path : String)
    (file : List Char) (st : StateMap) (db : DB) (stats : Stats) :
    (passLoop valid host path file st db stats).endPos
      = get_position st path + (file.length - get_position st path) := by
  unfold passLoop
  rw [runLines_endPos, splitLines_sumLen, List.length_drop]

theorem runLines_nil (valid : List Char → Bool) (host path : String)
    (pos : Nat) (db : DB) (stats : Stats) :
    runLines valid host path [] pos db stats = ⟨db, stats, [], 0, pos⟩ := rfl

/-! ### Claim theorems -/

/-- C1: the Storage Sink insert, called with (origin_host, file_path,
byte_offset, payload), enforces uniqueness on the key triple: an insert
whose triple already exists changes nothing and returns false without
raising; an insert with a new triple stores the record and returns
true.  (The sink body is modelled from the spec, being invoked but not
defined in the sources at hand.) -/
theorem C1_insert_unique (db : DB) (host path : String) (off : Nat)
    (payload : List Char) :
    (hasKey db host path off = true →
      insert_raw_line db host path off payload = (db, false)) ∧
    (hasKey db host path off = false →
      insert_raw_line db host path off payload
        = (⟨host, path, off, payload⟩ :: db, true)) := by
  constructor <;> intro h <;> simp [insert_raw_line, h]

/-- Witness for C1 at concrete inputs: a duplicate triple is ignored and
reported false, a fresh triple is stored and reported true. -/
theorem C1_insert_unique_witness :
    insert_raw_line [⟨"h1", "a.jsonl", 3, ['x']⟩] "h1" "a.jsonl" 3 ['y']
        = ([⟨"h1", "a.jsonl", 3, ['x']⟩], false) ∧
    insert_raw_line [] "h1" "a.jsonl" 3 ['y']
        = ([⟨"h1", "a.jsonl", 3, ['y']⟩], true) :=
  ⟨(C1_insert_unique [⟨"h1", "a.jsonl", 3, ['x']⟩] "h1" "a.jsonl" 3 ['y']).1 (by decide),
   (C1_insert_unique [] "h1" "a.jsonl" 3 ['y']).2 (by decide)⟩

/-- C10: updating one path's offset in the progress store maps that path
to the new offset and leaves every other path's entry exactly as it was
in the persisted snapshot. -/
theorem C10_set_position_frame (st : StateMap) (p q : String) (n : Nat)
    (hq : q ≠ p) :
    get_position (set_position st p n) p = n ∧
    get_position (set_position st p n) q = get_position st q :=
  ⟨get_set_self st p n, get_set_ne st p q n hq⟩

/-- Witness for C10 at a concrete store: setting one file's offset
leaves the other file's entry unchanged. -/
theorem C10_set_position_frame_witness :
    get_position (set_position [("a", 1), ("b", 2)] "a" 7) "a" = 7 ∧
    get_position (set_position [("a", 1), ("b", 2)] "a" 7) "b" = 2 :=
  C10_set_position_frame [("a", 1), ("b", 2)] "a" "b" 7 (by decide)

/-- C9: a pass whose file open fails, or whose read is interrupted by an
I/O error after any prefix, is caught by the handler (the model is a
total function, so nothing propagates), leaves the progress store — and
in particular this file's offset — exactly as before, and performs no
offset commit, so a later event retries from the same position. -/
theorem C9_io_error_isolated (valid : List Char → Bool) (host path : String)
    (pre : List Char) (st : StateMap) (db : DB) (stats : Stats) :
    (_process_file_io valid host path ReadOutcome.openFail st db stats).state = st ∧
    (_process_file_io valid host path (ReadOutcome.readFail pre) st db stats).state = st ∧
    get_position
        (_process_file_io valid host path ReadOutcome.openFail st db stats).state path
      = get_position st path ∧
    get_position
        (_process_file_io valid host path (ReadOutcome.readFail pre) st db stats).state path
      = get_position st path ∧
    ((_process_file_io valid host path ReadOutcome.openFail st db stats).events.all
      fun e => !isSetPosEv e) = true ∧
    ((_process_file_io valid host path (ReadOutcome.readFail pre) st db stats).events.all
      fun e => !isSetPosEv e) = true := by
  refine ⟨rfl, rfl, rfl, rfl, by simp [_process_file_io], ?_⟩
  apply List.all_eq_true.mpr
  intro e he
  simp only [_process_file_io] at he
  simp [runLines_no_setPos valid host path (splitLines pre) (get_position st path) db stats e he]

/-- C5: the stored offset for a file never decreases across a pass; a
pass that does not get past its starting offset leaves the store
unchanged; and a pass that reads to the end of the file commits exactly
the end-of-file position, so the next pass resumes reading exactly
there. -/
theorem C5_offset_monotone (valid : List Char → Bool) (host path : String)
    (file : List Char) (st : StateMap) (db : DB) (stats : Stats) :
    get_position st path
      ≤ get_position (_process_file valid host path file st db stats).state path ∧
    (file.length ≤ get_position st path →
      (_process_file valid host path file st db stats).state = st) ∧
    (get_position st path < file.length →
      get_position (_process_file valid host path file st db stats).state path
        = file.length) := by
  have hend := passLoop_endPos valid host path file st db stats
  unfold _process_file
  by_cases h : get_position st path
      < (passLoop valid host path file st db stats).endPos
  · rw [hend] at h
    simp only [hend, h, ite_true]
    refine ⟨?_, ?_, ?_⟩
    · rw [get_set_self]; omega
    · intro hle; omega
    · intro hlt; rw [get_set_self]; omega
  · rw [hend] at h
    simp only [hend, h, ite_false]
    refine ⟨Nat.le_refl _, fun _ => by trivial, fun hlt => by omega⟩

/-- Witness for C5 at concrete inputs: a pass already at end of file
leaves the store untouched, and a pass from offset 0 commits the
end-of-file offset 2. -/
theorem C5_offset_monotone_witness :
    (_process_file validAny "h1" "f" ['a', '\n'] [("f", 2)] [] ⟨0, 0, 0⟩).state
        = [("f", 2)] ∧
    get_position
        (_process_file validAny "h1" "f" ['a', '\n'] [] [] ⟨0, 0, 0⟩).state "f"
      = (['a', '\n'] : List Char).length :=
  ⟨(C5_offset_monotone validAny "h1" "f" ['a', '\n'] [("f", 2)] [] ⟨0, 0, 0⟩).2.1
      (by decide),
   (C5_offset_monotone validAny "h1" "f" ['a', '\n'] [] [] ⟨0, 0, 0⟩).2.2
      (by decide)⟩

/-- C3: running the pass twice over the same unchanged file from offset
0 both times (fresh progress store each time, as after a crash) yields
exactly the sink contents of the first pass — the second pass stores
nothing new, and every insert it issues reports inserted = false. -/
theorem C3_idempotent_rerun (valid : List Char → Bool) (host path : String)
    (file : List Char) (db : DB) (stats1 stats2 : Stats) :
    (_process_file valid host path file []
        (_process_file valid host path file [] db stats1).db stats2).db
      = (_process_file valid host path file [] db stats1).db ∧
    ((_process_file valid host path file []
        (_process_file valid host path file [] db stats1).db stats2).events.all
      fun e => !isInsTrue e) = true := by
  have hget : get_position ([] : StateMap) path = 0 := rfl
  have hpl : ∀ db' stats', passLoop valid host path file [] db' stats'
      = runLines valid host path (splitLines file) 0 db' stats' := by
    intro db' stats'
    unfold passLoop
    rw [hget, List.drop_zero]
  have h1 : (_process_file valid host path file [] db stats1).db
      = insertAll db (attempts valid host path (splitLines file) 0) := by
    rw [(process_file_proj valid host path file [] db stats1).1, hpl, runLines_db]
  have hkeys : ∀ r ∈ attempts valid host path (splitLines file) 0,
      hasKey (_process_file valid host path file [] db stats1).db r.host r.path r.off
        = true := by
    intro r hr
    rw [h1]
    exact insertAll_complete _ db r hr
  have hstable := runLines_stable valid host path (splitLines file) 0
    (_process_file valid host path file [] db stats1).db stats2 hkeys
  constructor
  · rw [(process_file_proj valid host path file []
      (_process_file valid host path file [] db stats1).db stats2).1, hpl]
    exact hstable.1
  · rw [process_file_events, List.all_append]
    rw [Bool.and_eq_true]
    constructor
    · apply List.all_eq_true.mpr
      intro e he
      rw [hpl] at he
      simp [hstable.2 e he]
    · by_cases hc : get_position ([] : StateMap) path
          < (passLoop valid host path file []
              (_process_file valid host path file [] db stats1).db stats2).endPos <;>
        simp [hc, isInsTrue]

/-- C2 (amended): in every pass, the offset commit is the only commit
event, always comes after every sink insert of the pass, and its value
bounds the offset of every inserted line; it happens exactly once when
the end-of-file position exceeds the starting offset and zero times
otherwise (the claim's "exactly once in every pass" fails for a pass
that does not advance, see the counterexample). -/
theorem C2_commit_after_reads (valid : List Char → Bool) (host path : String)
    (file : List Char) (st : StateMap) (db : DB) (stats : Stats) :
    (_process_file valid host path file st db stats).events
      = (passLoop valid host path file st db stats).events
        ++ (if get_position st path
              < (passLoop valid host path file st db stats).endPos
            then [Event.setPos path (passLoop valid host path file st db stats).endPos]
            else []) ∧
    ((passLoop valid host path file st db stats).events.all
      fun e => !isSetPosEv e) = true ∧
    ((passLoop valid host path file st db stats).events.all
      (insOffLt (passLoop valid host path file st db stats).endPos)) = true ∧
    (_process_file valid host path file st db stats).events.countP isSetPosEv
      = (if get_position st path
            < (passLoop valid host path file st db stats).endPos
         then 1 else 0) := by
  refine ⟨process_file_events valid host path file st db stats, ?_, ?_, ?_⟩
  · apply List.all_eq_true.mpr
    intro e he
    simp [runLines_no_setPos valid host path _ _ _ _ e he]
  · apply List.all_eq_true.mpr
    intro e he
    exact runLines_ins_lt valid host path _ _ _ _ e he
  · rw [process_file_events, List.countP_append]
    have hz : (passLoop valid host path file st db stats).events.countP isSetPosEv = 0 := by
      apply List.countP_eq_zero.mpr
      intro e he
      simp [runLines_no_setPos valid host path _ _ _ _ e he]
    rw [hz]
    by_cases hc : get_position st path
        < (passLoop valid host path file st db stats).endPos <;>
      simp [hc, isSetPosEv]

/-- C2 counterexample: a pass over a two-byte file whose stored offset
already equals the file length performs zero offset commits, not
exactly one. -/
theorem C2_commit_counterexample :
    ¬ ((_process_file validAny "h1" "f" ['a', '\n'] [("f", 2)] []
        ⟨0, 0, 0⟩).events.countP isSetPosEv = 1) := by decide

/-- C4: for a file fully processed up to the end of its old contents
(stored offset = old length) to which M new well-formed, storable lines
are appended, a subsequent pass stores exactly M new records — all for
this path at offsets past the old end — and leaves every previously
stored record in place, unmodified and unduplicated (the new offsets
are all at or past the old end, where no stored record for this path
lies). -/
theorem C4_resumption (valid : List Char → Bool) (host path : String)
    (f1 app : List Char) (lines : List (List Char)) (M : Nat)
    (st : StateMap) (db : DB) (stats : Stats)
    (hpos : get_position st path = f1.length)
    (hsplit : splitLines app = lines)
    (hM : lines.length = M)
    (hgood : ∀ l ∈ lines, lineWF l = true ∧ goodLine valid l = true)
    (hfresh : ∀ r ∈ db, r.path = path → r.off < f1.length) :
    ∃ news,
      (_process_file valid host path (f1 ++ app) st db stats).db = news ++ db ∧
      news.length = M ∧
      (∀ r ∈ news, r.path = path ∧ f1.length ≤ r.off) ∧
      (_process_file valid host path (f1 ++ app) st db stats).newLines = M ∧
      (_process_file valid host path (f1 ++ app) st db stats).stats.inserted
        = stats.inserted + M := by
  have hdrop : (f1 ++ app).drop (get_position st path) = app := by
    rw [hpos]
    exact List.drop_left f1 app
  have hpl : passLoop valid host path (f1 ++ app) st db stats
      = runLines valid host path lines f1.length db stats := by
    unfold passLoop
    rw [hdrop, hsplit, hpos]
  obtain ⟨news, h1, h2, h3, h4, h5⟩ :=
    runLines_fresh valid host path lines f1.length db stats
      (fun l hl => (hgood l hl).2) hfresh
  refine ⟨news, ?_, h2.trans hM, h3, ?_, ?_⟩
  · rw [(process_file_proj valid host path (f1 ++ app) st db stats).1, hpl, h1]
  · rw [(process_file_proj valid host path (f1 ++ app) st db stats).2.2, hpl, h4, hM]
  · rw [(process_file_proj valid host path (f1 ++ app) st db stats).2.1, hpl, h5, hM]

/-- Witness for C4: one line appended to a fully processed two-byte
file is stored as exactly one new record past the old end, the old
record staying in place. -/
theorem C4_resumption_witness :
    ∃ news,
      (_process_file validAny "h1" "f" (['a', '\n'] ++ ['b', '\n']) [("f", 2)]
          [⟨"h1", "f", 0, ['a']⟩] ⟨0, 0, 0⟩).db = news ++ [⟨"h1", "f", 0, ['a']⟩] ∧
      news.length = 1 ∧
      (∀ r ∈ news, r.path = "f" ∧ (['a', '\n'] : List Char).length ≤ r.off) ∧
      (_process_file validAny "h1" "f" (['a', '\n'] ++ ['b', '\n']) [("f", 2)]
          [⟨"h1", "f", 0, ['a']⟩] ⟨0, 0, 0⟩).newLines = 1 ∧
      (_process_file validAny "h1" "f" (['a', '\n'] ++ ['b', '\n']) [("f", 2)]
          [⟨"h1", "f", 0, ['a']⟩] ⟨0, 0, 0⟩).stats.inserted
        = Stats.inserted ⟨0, 0, 0⟩ + 1 :=
  C4_resumption validAny "h1" "f" ['a', '\n'] ['b', '\n'] [['b', '\n']] 1
    [("f", 2)] [⟨"h1", "f", 0, ['a']⟩] ⟨0, 0, 0⟩
    (by decide) (by decide) (by decide) (by decide) (by decide)

theorem runLines_blank_step (valid : List Char → Bool) (host path : String)
    (l : List Char) (rest : List (List Char)) (pos : Nat) (db : DB) (stats : Stats)
    (h : (pstrip l).isEmpty = true) :
    runLines valid host path (l :: rest) pos db stats
      = runLines valid host path rest (pos + l.length) db stats := by
  rw [runLines_cons]
  simp [h]

theorem runLines_good_step (valid : List Char → Bool) (host path : String)
    (l : List Char) (rest : List (List Char)) (pos : Nat) (db : DB) (stats : Stats)
    (h1 : (pstrip l).isEmpty = false)
    (h2 : valid (sanitize (pstrip l)) = true)
    (h3 : hasKey db host path pos = false) :
    runLines valid host path (l :: rest) pos db stats
      = { runLines valid host path rest (pos + l.length)
            (⟨host, path, pos, sanitize (pstrip l)⟩ :: db)
            { stats with inserted := stats.inserted + 1 } with
          events := Event.ins host path pos (sanitize (pstrip l)) true
            :: (runLines valid host path rest (pos + l.length)
                  (⟨host, path, pos, sanitize (pstrip l)⟩ :: db)
                  { stats with inserted := stats.inserted + 1 }).events,
          newLines := (runLines valid host path rest (pos + l.length)
                  (⟨host, path, pos, sanitize (pstrip l)⟩ :: db)
                  { stats with inserted := stats.inserted + 1 }).newLines + 1 } := by
  rw [runLines_cons]
  have hr : on_line host db stats path pos (sanitize (pstrip l))
      = ⟨⟨host, path, pos, sanitize (pstrip l)⟩ :: db,
          { stats with inserted := stats.inserted + 1 }, true⟩ := by
    simp [on_line, insert_raw_line, h3]
  simp only [h1, h2, Bool.false_eq_true, ite_false, ite_true, hr]

theorem runLines_bad_step (valid : List Char → Bool) (host path : String)
    (l : List Char) (rest : List (List Char)) (pos : Nat) (db : DB) (stats : Stats)
    (h1 : (pstrip l).isEmpty = false)
    (h2 : valid (sanitize (pstrip l)) = false) :
    runLines valid host path (l :: rest) pos db stats
      = { runLines valid host path rest (pos + l.length) db stats with
          events := Event.warn path pos
            :: (runLines valid host path rest (pos + l.length) db stats).events } := by
  rw [runLines_cons]
  simp only [h1, h2, Bool.false_eq_true, ite_false]

/-- C6: a full pass over a file of a storable JSON line, a blank line,
and another storable JSON line stores exactly the two records keyed by
the offsets where lines 1 and 3 begin — 0 and the byte length of line 1
plus line 2 including their terminators — and the blank line is skipped
without any error being logged or counted. -/
theorem C6_blank_line_scenario (valid : List Char → Bool) (host path : String)
    (file l1 l2 l3 : List Char) (stats : Stats)
    (hsplit : splitLines file = [l1, l2, l3])
    ( _hwf1 : lineWF l1 = true) ( _hwf2 : lineWF l2 = true) ( _hwf3 : lineWF l3 = true)
    (hg1 : goodLine valid l1 = true)
    (hb2 : (pstrip l2).isEmpty = true)
    (hg3 : goodLine valid l3 = true) :
    (_process_file valid host path file [] [] stats).db
      = [⟨host, path, l1.length + l2.length, sanitize (pstrip l3)⟩,
         ⟨host, path, 0, sanitize (pstrip l1)⟩] ∧
    (_process_file valid host path file [] [] stats).stats.errors = stats.errors ∧
    (_process_file valid host path file [] [] stats).events.countP isWarnEv = 0 ∧
    (_process_file valid host path file [] [] stats).newLines = 2 := by
  have h1e := goodLine_not_blank hg1
  have hv1 := goodLine_valid hg1
  have h3e := goodLine_not_blank hg3
  have hv3 := goodLine_valid hg3
  have hl1 : l1 ≠ [] := goodLine_ne_nil hg1
  have hlen1 : 0 < l1.length := List.length_pos.mpr hl1
  have hk3 : hasKey [⟨host, path, 0, sanitize (pstrip l1)⟩] host path
      (0 + l1.length + l2.length) = false := by
    simp [hasKey, sameKey]
    omega
  have hpl : passLoop valid host path file [] [] stats
      = runLines valid host path [l1, l2, l3] 0 [] stats := by
    unfold passLoop
    rw [show get_position ([] : StateMap) path = 0 from rfl, List.drop_zero, hsplit]
  have heval : runLines valid host path [l1, l2, l3] 0 [] stats
      = ⟨[⟨host, path, l1.length + l2.length, sanitize (pstrip l3)⟩,
          ⟨host, path, 0, sanitize (pstrip l1)⟩],
         { stats with inserted := stats.inserted + 1 + 1 },
         [Event.ins host path 0 (sanitize (pstrip l1)) true,
          Event.ins host path (l1.length + l2.length) (sanitize (pstrip l3)) true],
         2, l1.length + l2.length + l3.length⟩ := by
    rw [runLines_good_step valid host path l1 [l2, l3] 0 [] stats h1e hv1 rfl]
    rw [runLines_blank_step valid host path l2 [l3] (0 + l1.length) _ _ hb2]
    rw [runLines_good_step valid host path l3 [] (0 + l1.length + l2.length) _ _ h3e hv3 hk3]
    rw [runLines_nil]
    simp
  refine ⟨?_, ?_, ?_, ?_⟩
  · rw [(process_file_proj valid host path file [] [] stats).1, hpl, heval]
  · rw [(process_file_proj valid host path file [] [] stats).2.1, hpl, heval]
  · rw [process_file_events, List.countP_append, hpl, heval]
    by_cases hc : get_position ([] : StateMap) path
        < (⟨[⟨host, path, l1.length + l2.length, sanitize (pstrip l3)⟩,
              ⟨host, path, 0, sanitize (pstrip l1)⟩],
            { stats with inserted := stats.inserted + 1 + 1 },
            [Event.ins host path 0 (sanitize (pstrip l1)) true,
             Event.ins host path (l1.length + l2.length) (sanitize (pstrip l3)) true],
            2, l1.length + l2.length + l3.length⟩ : LoopOut).endPos <;>
      simp [hc, isWarnEv]
  · rw [(process_file_proj valid host path file [] [] stats).2.2, hpl, heval]

/-- Witness for C6 on the spec's concrete scenario file: two records at
offsets 0 and 29 (line 1 and its terminator plus the blank line), no
warning, two lines counted. -/
theorem C6_blank_line_scenario_witness :
    (_process_file startsBrace "h1" "a.jsonl" (wline1 ++ ['\n'] ++ wline3) [] []
        ⟨0, 0, 0⟩).db
      = [⟨"h1", "a.jsonl", wline1.length + (['\n'] : List Char).length,
            sanitize (pstrip wline3)⟩,
         ⟨"h1", "a.jsonl", 0, sanitize (pstrip wline1)⟩] ∧
    (_process_file startsBrace "h1" "a.jsonl" (wline1 ++ ['\n'] ++ wline3) [] []
        ⟨0, 0, 0⟩).stats.errors = 0 ∧
    (_process_file startsBrace "h1" "a.jsonl" (wline1 ++ ['\n'] ++ wline3) [] []
        ⟨0, 0, 0⟩).events.countP isWarnEv = 0 ∧
    (_process_file startsBrace "h1" "a.jsonl" (wline1 ++ ['\n'] ++ wline3) [] []
        ⟨0, 0, 0⟩).newLines = 2 :=
  C6_blank_line_scenario startsBrace "h1" "a.jsonl"
    (wline1 ++ ['\n'] ++ wline3) wline1 ['\n'] wline3 ⟨0, 0, 0⟩
    (by decide) (by decide) (by decide) (by decide) (by decide) (by decide) (by decide)

/-- C8 (amended): a batch of a storable line, a malformed line, and a
storable line stores exactly the two valid records, keeps going past
the bad line, and logs it as exactly one warning; nothing raises past
the coordinator, but — contrary to the claim's "counted as an error" —
the malformed line leaves the process error counter untouched (it
counts only storage failures). -/
theorem C8_malformed_tolerance (valid : List Char → Bool) (host path : String)
    (file l1 l2 l3 : List Char) (stats : Stats)
    (hsplit : splitLines file = [l1, l2, l3])
    (hg1 : goodLine valid l1 = true)
    (h2e : (pstrip l2).isEmpty = false)
    (h2v : valid (sanitize (pstrip l2)) = false)
    (hg3 : goodLine valid l3 = true) :
    (_process_file valid host path file [] [] stats).db
      = [⟨host, path, l1.length + l2.length, sanitize (pstrip l3)⟩,
         ⟨host, path, 0, sanitize (pstrip l1)⟩] ∧
    (_process_file valid host path file [] [] stats).events.countP isWarnEv = 1 ∧
    (_process_file valid host path file [] [] stats).stats.errors = stats.errors ∧
    (_process_file valid host path file [] [] stats).stats.inserted
      = stats.inserted + 2 := by
  have h1e := goodLine_not_blank hg1
  have hv1 := goodLine_valid hg1
  have h3e := goodLine_not_blank hg3
  have hv3 := goodLine_valid hg3
  have hl1 : l1 ≠ [] := goodLine_ne_nil hg1
  have hlen1 : 0 < l1.length := List.length_pos.mpr hl1
  have hk3 : hasKey [⟨host, path, 0, sanitize (pstrip l1)⟩] host path
      (0 + l1.length + l2.length) = false := by
    simp [hasKey, sameKey]
    omega
  have hpl : passLoop valid host path file [] [] stats
      = runLines valid host path [l1, l2, l3] 0 [] stats := by
    unfold passLoop
    rw [show get_position ([] : StateMap) path = 0 from rfl, List.drop_zero, hsplit]
  have heval : runLines valid host path [l1, l2, l3] 0 [] stats
      = ⟨[⟨host, path, l1.length + l2.length, sanitize (pstrip l3)⟩,
          ⟨host, path, 0, sanitize (pstrip l1)⟩],
         { stats with inserted := stats.inserted + 1 + 1 },
         [Event.ins host path 0 (sanitize (pstrip l1)) true,
          Event.warn path l1.length,
          Event.ins host path (l1.length + l2.length) (sanitize (pstrip l3)) true],
         2, l1.length + l2.length + l3.length⟩ := by
    rw [runLines_good_step valid host path l1 [l2, l3] 0 [] stats h1e hv1 rfl]
    rw [runLines_bad_step valid host path l2 [l3] (0 + l1.length) _ _ h2e h2v]
    rw [runLines_good_step valid host path l3 [] (0 + l1.length + l2.length) _ _ h3e hv3 hk3]
    rw [runLines_nil]
    simp
  refine ⟨?_, ?_, ?_, ?_⟩
  · rw [(process_file_proj valid host path file [] [] stats).1, hpl, heval]
  · rw [process_file_events, List.countP_append, hpl, heval]
    by_cases hc : get_position ([] : StateMap) path
        < (⟨[⟨host, path, l1.length + l2.length, sanitize (pstrip l3)⟩,
              ⟨host, path, 0, sanitize (pstrip l1)⟩],
            { stats with inserted := stats.inserted + 1 + 1 },
            [Event.ins host path 0 (sanitize (pstrip l1)) true,
             Event.warn path l1.length,
             Event.ins host path (l1.length + l2.length) (sanitize (pstrip l3)) true],
            2, l1.length + l2.length + l3.length⟩ : LoopOut).endPos <;>
      simp [hc, isWarnEv]
  · rw [(process_file_proj valid host path file [] [] stats).2.1, hpl, heval]
  · rw [(process_file_proj valid host path file [] [] stats).2.1, hpl, heval]

/-- Witness for C8 on the concrete batch: two records stored, one
warning logged, error counter unchanged, two lines counted. -/
theorem C8_malformed_tolerance_witness :
    (_process_file startsBrace "h1" "a.jsonl" (wline1 ++ badline ++ wline3) [] []
        ⟨0, 0, 0⟩).db
      = [⟨"h1", "a.jsonl", wline1.length + badline.length, sanitize (pstrip wline3)⟩,
         ⟨"h1", "a.jsonl", 0, sanitize (pstrip wline1)⟩] ∧
    (_process_file startsBrace "h1" "a.jsonl" (wline1 ++ badline ++ wline3) [] []
        ⟨0, 0, 0⟩).events.countP isWarnEv = 1 ∧
    (_process_file startsBrace "h1" "a.jsonl" (wline1 ++ badline ++ wline3) [] []
        ⟨0, 0, 0⟩).stats.errors = 0 ∧
    (_process_file startsBrace "h1" "a.jsonl" (wline1 ++ badline ++ wline3) [] []
        ⟨0, 0, 0⟩).stats.inserted = 0 + 2 :=
  C8_malformed_tolerance startsBrace "h1" "a.jsonl"
    (wline1 ++ badline ++ wline3) wline1 badline wline3 ⟨0, 0, 0⟩
    (by decide) (by decide) (by decide) (by decide) (by decide)

/-- C8 counterexample: on the spec's own batch, claimed to yield "one
counted error", the pass stores two records while the error counter
stays 0. -/
theorem C8_error_not_counted_counterexample :
    (_process_file startsBrace "h1" "a.jsonl" (wline1 ++ badline ++ wline3) [] []
        ⟨0, 0, 0⟩).db.length = 2 ∧
    ¬ ((_process_file startsBrace "h1" "a.jsonl" (wline1 ++ badline ++ wline3) [] []
        ⟨0, 0, 0⟩).stats.errors = 1) := by decide

/-- C7 (code bug, evaluated at the failing input): the one-pass escape
removal deletes the complete escape occurrence but thereby joins the
surrounding halves into a fresh `\u0000` occurrence, so the sanitized
line — and hence the stored payload — still contains the escaped form
the claim says is always absent. -/
theorem C7_sanitize_incomplete :
    sanitize evilLine
      = '\x7b' :: '"' :: 'a' :: '"' :: ':' :: '"' :: (escPat ++ ['"', '\x7d']) ∧
    hasSub escPat (sanitize evilLine) = true ∧
    (_process_file startsBrace "h1" "a.jsonl" (evilLine ++ ['\n']) [] [] ⟨0, 0, 0⟩).db
      = [⟨"h1", "a.jsonl", 0, sanitize (pstrip (evilLine ++ ['\n']))⟩] ∧
    hasSub escPat
      (RawRecord.payload ⟨"h1", "a.jsonl", 0, sanitize (pstrip (evilLine ++ ['\n']))⟩)
      = true := by decide
